import Mathlib

/-!
Verification of the build-time markdown annotation pipeline in
`packages/qwik-city/src/buildtime/markdown/rehype.ts`.

The TypeScript source is shallowly embedded: hast trees become an inductive
type, JavaScript strings become Lean `String`s manipulated through executable
character-list operations matching the JavaScript semantics, the filesystem
existence check becomes a boolean-valued parameter, and `console.warn` becomes
an accumulated list of warning strings.  External npm dependencies whose
sources are not part of this repository (`github-slugger`, `path`, `fs`,
`hast-util-heading-rank`, `hast-util-to-string`, `unist-util-visit`) are
modelled from their documented behaviour as referenced by the specification.
-/

set_option autoImplicit false

namespace Rehype

/-! ### JavaScript string primitives

JavaScript strings are sequences of characters; the operations used by the
source (`trim`, `toLowerCase`, `startsWith`, `endsWith`, `substring`,
`split`, `join`) are embedded as structural functions over `String.data` so
that every definition evaluates inside the kernel. -/

/-- JavaScript `String.prototype.trim`: remove leading and trailing whitespace. -/
def jsTrim (s : String) : String :=
  String.mk (((s.data.dropWhile Char.isWhitespace).reverse.dropWhile
    Char.isWhitespace).reverse)

/-- JavaScript `String.prototype.toLowerCase` (ASCII case folding). -/
def jsToLower (s : String) : String :=
  String.mk (s.data.map Char.toLower)

/-- JavaScript `String.prototype.startsWith`. -/
def strStarts (s p : String) : Bool :=
  p.data.isPrefixOf s.data

/-- JavaScript `String.prototype.endsWith`. -/
def strEnds (s p : String) : Bool :=
  p.data.isSuffixOf s.data

/-- JavaScript `s.substring(0, e)` (negative end indices clamp to `0`, which
`Nat` subtraction at all call sites reproduces). -/
def jsSubstringTo (s : String) (e : Nat) : String :=
  String.mk (s.data.take e)

/-- JavaScript `String.prototype.split` with a single-character separator. -/
def splitChar (sep : Char) : List Char → List (List Char)
  | [] => [[]]
  | c :: cs =>
    match splitChar sep cs with
    | [] => [[]]
    | g :: gs => if c == sep then [] :: g :: gs else (c :: g) :: gs

/-- JavaScript `Array.prototype.join` with a single-character separator. -/
def joinChar (sep : Char) : List (List Char) → List Char
  | [] => []
  | [g] => g
  | g :: gs => g ++ sep :: joinChar sep gs

/-! ### The `path` and `fs` collaborators -/

/-- Modelled from the spec: Node's `path.dirname` for POSIX paths — the
directory containing the current document's source path (§4.1).  The `path`
module is an external dependency whose source is outside this repository. -/
def dirname (p : String) : String :=
  match (splitChar '/' p.data).dropLast with
  | [] => "."
  | [[]] => "/"
  | segs => String.mk (joinChar '/' segs)

/-- Segment normalisation for `resolvePath`: drops empty and `.` segments and
lets `..` discard the preceding segment.  The accumulator is kept reversed. -/
def normSegs : List (List Char) → List (List Char) → List (List Char)
  | acc, [] => acc.reverse
  | acc, s :: rest =>
    if s = [] || s = ['.'] then normSegs acc rest
    else if s = ['.', '.'] then normSegs acc.tail rest
    else normSegs (s :: acc) rest

/-- Modelled from the spec: Node's `path.resolve(base, rel)` for POSIX paths
with an absolute base directory — resolving a link target against the
directory containing the current document's source path (§4.1). -/
def resolvePath (base rel : String) : String :=
  let full := if strStarts rel "/" then rel.data else base.data ++ '/' :: rel.data
  String.mk ('/' :: joinChar '/' (normSegs [] (splitChar '/' full)))

/-! ### The slugger

`github-slugger` is an external dependency; its `occurrences` object is
embedded as an association list from slug strings to counters. -/

/-- Modelled from the spec: the base slug derivation of the ecosystem slugger
(§4.2): case-fold, drop characters that are neither alphanumeric, space nor
hyphen, then replace each space with a hyphen. -/
def slugify (s : String) : String :=
  String.mk (((s.data.map Char.toLower).filter
    (fun c => c.isAlphanum || c == ' ' || c == '-')).map
    (fun c => if c == ' ' then '-' else c))

/-- JavaScript `own.call(occurrences, k)`. -/
def hasOwn (occ : List (String × Nat)) (k : String) : Bool :=
  occ.any (fun p => p.1 == k)

/-- JavaScript `occurrences[k]`, with `0` standing for an absent counter. -/
def occGet (occ : List (String × Nat)) (k : String) : Nat :=
  match occ.find? (fun p => p.1 == k) with
  | some p => p.2
  | none => 0

/-- JavaScript `occurrences[k] = v`: overwrite the binding or append it. -/
def occSet : List (String × Nat) → String → Nat → List (String × Nat)
  | [], k, v => [(k, v)]
  | p :: rest, k, v => if p.1 == k then (k, v) :: rest else p :: occSet rest k v

/-- The collision candidate `originalSlug + '-' + occurrences[originalSlug]`
built by the slugger's collision loop. -/
def cand (orig : String) (n : Nat) : String :=
  orig ++ "-" ++ Nat.repr n

/-- Modelled from the spec: the collision loop of the ecosystem slugger's
`slug` method (§4.2) — `while (own.call(occurrences, slug)) {
occurrences[originalSlug]++; slug = originalSlug + '-' +
occurrences[originalSlug] }`.  The loop is embedded with explicit fuel; one
more than the number of stored keys always suffices (`slugLoop_fresh`). -/
def slugLoop (orig : String) : Nat → List (String × Nat) → String →
    String × List (String × Nat)
  | 0, occ, slug => (slug, occ)
  | fuel + 1, occ, slug =>
    if hasOwn occ slug then
      let n := occGet occ orig + 1
      slugLoop orig fuel (occSet occ orig n) (cand orig n)
    else
      (slug, occ)

/-- The state of a `github-slugger` `Slugger` instance (the module-level
`slugs` constant of the source). -/
structure Slugger where
  occurrences : List (String × Nat)
  deriving DecidableEq

/-- Modelled from the spec: `Slugger.prototype.slug` (§4.2): derive the base
slug, run the collision loop, record the result with a zero counter. -/
def Slugger.slug (s : Slugger) (value : String) : String × Slugger :=
  let orig := slugify value
  let r := slugLoop orig (s.occurrences.length + 1) s.occurrences orig
  (r.1, ⟨occSet r.2 r.1 0⟩)

/-- `Slugger.prototype.reset`: clear the occurrence registry. -/
def Slugger.reset (_ : Slugger) : Slugger :=
  ⟨[]⟩

/-! ### Injectivity of the decimal representation used by the collision
candidates -/

/-- Most-significant-first decimal digits of a natural number; agrees with the
fuelled `Nat.toDigitsCore` from core (`toDigitsCore_eq_digitsRec`). -/
def digitsRec (n : Nat) : List Char :=
  if _h : n < 10 then [Nat.digitChar n]
  else digitsRec (n / 10) ++ [Nat.digitChar (n % 10)]
termination_by n
decreasing_by exact Nat.div_lt_self (by omega) (by omega)

/-- The value of a most-significant-first decimal digit list. -/
def decDigitVal (l : List Char) : Nat :=
  l.foldl (fun a c => a * 10 + (c.toNat - 48)) 0


/-! ### The hast document tree -/

/-- A JavaScript value stored in an element's `properties` map. -/
inductive PVal where
  | vNull
  | vUndef
  | vBool (b : Bool)
  | vStr (s : String)
  deriving DecidableEq

abbrev Props := List (String × PVal)

/-- JavaScript property read `props[k]` (`none` models `undefined` through an
absent key). -/
def propGet (props : Props) (k : String) : Option PVal :=
  match props.find? (fun p => p.1 == k) with
  | some p => some p.2
  | none => none

/-- JavaScript property write `props[k] = v`: overwrite or append. -/
def propSet : Props → String → PVal → Props
  | [], k, v => [(k, v)]
  | p :: rest, k, v => if p.1 == k then (k, v) :: rest else p :: propSet rest k v

/-- A value injected by `createExport`; mirrors the JSON-serialisable values
the pipeline builds (`valueToEstree`'s input). -/
inductive EJVal where
  | str (s : String)
  | nat (n : Nat)
  | undef
  | arr (xs : List EJVal)
  | obj (fields : List (String × EJVal))

/-- A hast/mdast node as the pipeline sees it: an element with a tag, an
optional `properties` object and children; a text node; or a synthetic
`mdxjsEsm` binding.  The estree `Program`/`ExportNamedDeclaration` wrapper
built by `createExport` is elided: the binding node keeps the identifier name
and the injected value (its `value` field is the empty string in the source,
so `hast-util-to-string` reads it as `""`). -/
inductive HNode where
  | element (tagName : String) (properties : Option Props) (children : List HNode)
  | htext (value : String)
  | esmExport (name : String) (value : EJVal)

/-- The mdast `Root`. -/
structure Root where
  children : List HNode

/-- `hasProperty` (source lines 207–218): the own-property lookup chain
`propName && node && typeof node === 'object' && node.type === 'element' &&
node.properties && own.call(node.properties, propName) &&
node.properties[propName]`, then `value != null && value !== false`.
When `propName` is the empty string the chain short-circuits to `''`, which
passes both final tests — the quirk is kept. -/
def hasProperty (node : HNode) (propName : String) : Bool :=
  if propName == "" then true
  else
    match node with
    | .element _ (some props) _ =>
      match propGet props propName with
      | none => false
      | some .vNull => false
      | some .vUndef => false
      | some (.vBool b) => b
      | some (.vStr _) => true
    | _ => false

/-- Modelled from the spec: `hast-util-heading-rank` (an external dependency)
— the rank of `h1`…`h6` elements, `none` otherwise (§4.2). -/
def headingRank (node : HNode) : Option Nat :=
  match node with
  | .element tag _ _ =>
    match (jsToLower tag).data with
    | ['h', c] =>
      let d := c.toNat - 48
      if 1 ≤ d ∧ d ≤ 6 then some d else none
    | _ => none
  | _ => none

mutual

/-- Modelled from the spec: `hast-util-to-string` (an external dependency) —
the concatenation of all descendant text values, in document order (§4.2). -/
def nodeToString : HNode → String
  | .element _ _ cs => listToString cs
  | .htext v => v
  | .esmExport _ _ => ""

def listToString : List HNode → String
  | [] => ""
  | c :: cs => nodeToString c ++ listToString cs

end

/-! ### The Local-Link Resolver (`updateContentLinks`, source lines 32–62) -/

/-- `isLocalHref` (source lines 196–205). -/
def isLocalHref (href : String) : Bool :=
  let h := jsToLower href
  !(h == "" || strStarts h "#" || strStarts h "https://" ||
    strStarts h "http://" || strStarts h "about:")

/-- The read `((node.properties && node.properties.href) || '')`: JavaScript
`||` turns a falsy value (absent key, `undefined`, `null`, `false`, `''`)
into `''`.  A truthy non-string `href` would make the source throw at
`.trim()` and is outside the modelled domain (read as `''`). -/
def hrefString (properties : Option Props) : String :=
  match properties with
  | none => ""
  | some props =>
    match propGet props "href" with
    | some (.vStr s) => s
    | _ => ""

/-- The body of `updateContentLinks`'s visitor for one element node (source
lines 33–61): returns the updated `properties` and the warnings written by
`console.warn`.  `fsExists` embeds `existsSync`. -/
def updateLinkVisit (fsExists : String → Bool) (sourcePath : String)
    (tagName : String) (properties : Option Props) : Option Props × List String :=
  if jsToLower tagName ≠ "a" then (properties, [])
  else
    let href := jsTrim (hrefString properties)
    if isLocalHref href = false then (properties, [])
    else
      let lowerHref := jsToLower href
      if strEnds lowerHref ".mdx" || strEnds lowerHref ".md" then
        let mdxPath := resolvePath (dirname sourcePath) href
        if fsExists mdxPath = false then
          (properties,
            ["\nThe link \"" ++ href ++ "\", found within \"" ++ sourcePath ++
              "\", does not have a matching source file.\n"])
        else
          if strEnds lowerHref ".mdx" then
            (some (propSet (properties.getD []) "href"
              (.vStr (jsSubstringTo (hrefString properties) (href.length - 4)))), [])
          else
            (some (propSet (properties.getD []) "href"
              (.vStr (jsSubstringTo (hrefString properties) (href.length - 3)))), [])
      else (properties, [])

mutual

/-- `updateContentLinks`'s `visit(mdast, 'element', …)`: preorder walk
applying `updateLinkVisit` to every element node. -/
def updateLinksNode (fsExists : String → Bool) (sourcePath : String) :
    HNode → HNode × List String
  | .element tag props cs =>
    let r := updateLinkVisit fsExists sourcePath tag props
    let rs := updateLinksList fsExists sourcePath cs
    (.element tag r.1 rs.1, r.2 ++ rs.2)
  | .htext v => (.htext v, [])
  | .esmExport n v => (.esmExport n v, [])

def updateLinksList (fsExists : String → Bool) (sourcePath : String) :
    List HNode → List HNode × List String
  | [] => ([], [])
  | c :: cs =>
    let r := updateLinksNode fsExists sourcePath c
    let rs := updateLinksList fsExists sourcePath cs
    (r.1 :: rs.1, r.2 ++ rs.2)

end

/-- `updateContentLinks` (source lines 32–62). -/
def updateContentLinks (fsExists : String → Bool) (mdast : Root)
    (sourcePath : String) : Root × List String :=
  let r := updateLinksList fsExists sourcePath mdast.children
  (⟨r.1⟩, r.2)

/-! ### The Heading Slugger (`exportContentHeadings`, source lines 64–84) -/

/-- A heading outline entry (`PageHeading` from the runtime types). -/
structure PageHeading where
  text : String
  id : String
  level : Nat
  deriving DecidableEq

/-- State threaded through `exportContentHeadings`'s walk: the module-level
slugger and the accumulated outline. -/
structure HeadState where
  slugs : Slugger
  headings : List PageHeading
  deriving DecidableEq

/-- The body of `exportContentHeadings`'s visitor for one element node
(source lines 68–81): when the node is a heading (`headingRank`), has a
`properties` object, and `hasProperty(node, 'id')` fails, derive a slug from
its text, set `properties.id` and push the outline entry. -/
def headingVisit (st : HeadState) (tag : String) (props : Option Props)
    (cs : List HNode) : Option Props × HeadState :=
  match headingRank (.element tag props cs), props with
  | some level, some ps =>
    if hasProperty (.element tag props cs) "id" then (props, st)
    else
      let text := nodeToString (.element tag props cs)
      let r := st.slugs.slug text
      (some (propSet ps "id" (.vStr r.1)),
        ⟨r.2, st.headings ++ [⟨text, r.1, level⟩]⟩)
  | _, _ => (props, st)

mutual

/-- `exportContentHeadings`'s `visit(mdast, 'element', …)`: preorder walk
applying `headingVisit` to every element node. -/
def slugNode : HeadState → HNode → HNode × HeadState
  | st, .element tag props cs =>
    let r := headingVisit st tag props cs
    let rs := slugList r.2 cs
    (.element tag r.1 rs.1, rs.2)
  | st, .htext v => (.htext v, st)
  | st, .esmExport n v => (.esmExport n v, st)

def slugList : HeadState → List HNode → List HNode × HeadState
  | st, [] => ([], st)
  | st, c :: cs =>
    let r := slugNode st c
    let rs := slugList r.2 cs
    (r.1 :: rs.1, rs.2)

end

/-- `createExport` (source lines 164–194): build the synthetic `mdxjsEsm`
binding `export const <identifierName> = <val>` and `unshift` it onto the
tree's child list. -/
def createExport (mdast : Root) (identifierName : String) (val : EJVal) : Root :=
  ⟨.esmExport identifierName val :: mdast.children⟩

/-- The `valueToEstree` image of the headings outline, at the value level. -/
def headingsToEJ (hs : List PageHeading) : EJVal :=
  .arr (hs.map fun h => .obj [("text", .str h.text), ("id", .str h.id), ("level", .nat h.level)])

/-- `exportContentHeadings` (source lines 64–84).  The module-level slugger
(`slugs`, source line 15) is passed in and reset first (`slugs.reset()`);
the final walk state is returned alongside the tree. -/
def exportContentHeadings (slugs : Slugger) (mdast : Root) : Root × HeadState :=
  let st0 : HeadState := ⟨slugs.reset, []⟩
  let r := slugList st0 mdast.children
  (createExport ⟨r.1⟩ "headings" (headingsToEJ r.2.headings), r.2)

/-! ### Routes, menus, breadcrumbs and the page index -/

/-- A route-table entry (`PageRoute`): pathname plus optional attributes. -/
structure PageRoute where
  pathname : String
  attributes : Option (List (String × String))

/-- A hierarchical menu item (`{ text, href, items? }`). -/
inductive MenuItem where
  | mk (text : String) (href : String) (items : Option (List MenuItem))

def MenuItem.text : MenuItem → String
  | .mk t _ _ => t

def MenuItem.href : MenuItem → String
  | .mk _ h _ => h

def MenuItem.items : MenuItem → Option (List MenuItem)
  | .mk _ _ i => i

/-- A menu-table entry: a pathname-keyed menu section. -/
structure Menu where
  pathname : String
  items : Option (List MenuItem)

/-- The build context consumed by the pipeline: route table, menu table, and
the external pathname-derivation function. -/
structure BuildContext where
  routes : List PageRoute
  menus : List Menu
  /-- Modelled from the spec: `getPagePathname(ctx.opts, path)` (§6), an
  external utility of this repository whose source is not under `src/`. -/
  pagePathname : String → String

/-- The `valueToEstree` image of the attributes mapping, at the value level. -/
def attributesToEJ (attrs : List (String × String)) : EJVal :=
  .obj (attrs.map fun p => (p.1, .str p.2))

/-- `exportPageAttributes` (source lines 86–90): `ctx.routes.find(...)`, then
`page?.attributes || {}`. -/
def exportPageAttributes (ctx : BuildContext) (mdast : Root) (pathname : String) : Root :=
  let page := ctx.routes.find? (fun p => p.pathname == pathname)
  let attributes :=
    match page with
    | some p => p.attributes.getD []
    | none => []
  createExport mdast "attributes" (attributesToEJ attributes)

/-- A breadcrumb entry (`PageBreadcrumb` from the runtime types). -/
structure PageBreadcrumb where
  text : String
  href : String
  deriving DecidableEq

/-- The `valueToEstree` image of a breadcrumb list, at the value level. -/
def bcToEJ (bs : List PageBreadcrumb) : EJVal :=
  .arr (bs.map fun b => .obj [("text", .str b.text), ("href", .str b.href)])

/-- The `for (const indexC of indexB.items)` loop of `exportBreadcrumbs`
(source lines 120–129). -/
def findBreadcrumbC (bA bB : PageBreadcrumb) (pathname : String) :
    List MenuItem → Option (List PageBreadcrumb)
  | [] => none
  | c :: rest =>
    let bC : PageBreadcrumb := ⟨c.text, c.href⟩
    if c.href == pathname then some [bA, bB, bC]
    else findBreadcrumbC bA bB pathname rest

/-- The `for (const indexB of indexA.items)` loop of `exportBreadcrumbs`
(source lines 110–131). -/
def findBreadcrumbB (bA : PageBreadcrumb) (pathname : String) :
    List MenuItem → Option (List PageBreadcrumb)
  | [] => none
  | b :: rest =>
    let bB : PageBreadcrumb := ⟨b.text, b.href⟩
    if b.href == pathname then some [bA, bB]
    else
      match b.items with
      | some cs =>
        match findBreadcrumbC bA bB pathname cs with
        | some r => some r
        | none => findBreadcrumbB bA pathname rest
      | none => findBreadcrumbB bA pathname rest

/-- The `for (const indexA of menu.items)` loop of `exportBreadcrumbs`
(source lines 100–133). -/
def findBreadcrumbA (pathname : String) :
    List MenuItem → Option (List PageBreadcrumb)
  | [] => none
  | a :: rest =>
    let bA : PageBreadcrumb := ⟨a.text, a.href⟩
    if a.href == pathname then some [bA]
    else
      match a.items with
      | some bs =>
        match findBreadcrumbB bA pathname bs with
        | some r => some r
        | none => findBreadcrumbA pathname rest
      | none => findBreadcrumbA pathname rest

/-- `exportBreadcrumbs` (source lines 92–137).  When `menuPathname` is
`undefined`, `ctx.menus.find((m) => m.pathname === menuPathname)` can never
match (every stored pathname is a string), so the lookup is modelled as
`none` directly. -/
def exportBreadcrumbs (ctx : BuildContext) (mdast : Root) (pathname : String)
    (menuPathname : Option String) : Root :=
  let menu : Option Menu :=
    match menuPathname with
    | some mp => ctx.menus.find? (fun m => m.pathname == mp)
    | none => none
  match menu with
  | some m =>
    match m.items with
    | some its =>
      match findBreadcrumbA pathname its with
      | some bs => createExport mdast "breadcrumbs" (bcToEJ bs)
      | none => createExport mdast "breadcrumbs" (bcToEJ [])
    | none => createExport mdast "breadcrumbs" (bcToEJ [])
  | none => createExport mdast "breadcrumbs" (bcToEJ [])

/-- `exportPageIndex` (source lines 139–143). -/
def exportPageIndex (_ctx : BuildContext) (mdast : Root)
    (indexPathname : Option String) : Root :=
  createExport mdast "index"
    (.obj [("path",
      match indexPathname with
      | some p => .str p
      | none => .undef)])

/-- One truncation step of `getMenuPathname`: `pathname.split('/')`,
`parts.pop()`, `parts.join('/')` (source lines 152–155). -/
def truncSeg (pathname : String) : String :=
  String.mk (joinChar '/' ((splitChar '/' pathname.data).dropLast))

/-- The `for (let i = 0; i < 9; i++)` loop of `getMenuPathname` (source
lines 145–162); the fuel is the number of remaining iterations. -/
def getMenuLoop (menus : List Menu) : Nat → String → Option String
  | 0, _ => none
  | i + 1, pathname =>
    if menus.any (fun m => m.pathname == pathname) then some pathname
    else
      let p2 := truncSeg pathname
      if p2 == "/" then none
      else getMenuLoop menus i p2

/-- `getMenuPathname` (source lines 145–162). -/
def getMenuPathname (ctx : BuildContext) (pathname : String) : Option String :=
  getMenuLoop ctx.menus 9 pathname

/-! ### The Pipeline Orchestrator (`rehypePage`, source lines 17–30) -/

/-- `rehypePage`'s transformer body for one document: fixed order
links → headings → attributes → breadcrumbs → index.  Returns the
transformed tree, the final module slugger state, and the console
warnings. -/
def rehypePage (ctx : BuildContext) (fsExists : String → Bool) (slugs : Slugger)
    (mdast : Root) (sourcePath : String) : Root × Slugger × List String :=
  let pathname := ctx.pagePathname sourcePath
  let menuPathname := getMenuPathname ctx pathname
  let r1 := updateContentLinks fsExists mdast sourcePath
  let r2 := exportContentHeadings slugs r1.1
  let m3 := exportPageAttributes ctx r2.1 pathname
  let m4 := exportBreadcrumbs ctx m3 pathname menuPathname
  let m5 := exportPageIndex ctx m4 menuPathname
  (m5, r2.2.slugs, r1.2)

/-! ### Specification-side reformulations

These definitions follow the words of the specification (not the source);
they exist to be compared with the source-derived functions above. -/

/-- The walk invariant of the Heading Slugger: outline identifiers are
pairwise distinct and every one of them is registered in the slugger. -/
def HeadInv (st : HeadState) : Prop :=
  (st.headings.map PageHeading.id).Nodup ∧
  ∀ h ∈ st.headings, hasOwn st.slugs.occurrences h.id = true

/-- Whether a breadcrumb trail ends at the given pathname. -/
def lastMatches (pathname : String) (t : List PageBreadcrumb) : Bool :=
  match t.getLast? with
  | some b => b.href == pathname
  | none => false

/-- Modelled from the spec (§4.4): every breadcrumb trail to an item of the
first three menu levels, in depth-first sequence order. -/
def trailsOf (items : List MenuItem) : List (List PageBreadcrumb) :=
  items.flatMap (fun a =>
    let bA : PageBreadcrumb := ⟨a.text, a.href⟩
    [bA] :: ((a.items.getD []).flatMap (fun b =>
      let bB : PageBreadcrumb := ⟨b.text, b.href⟩
      [bA, bB] :: ((b.items.getD []).map (fun c => [bA, bB, ⟨c.text, c.href⟩])))))

/-- Modelled from the spec (§4.4): the first depth-first trail whose final
item's `href` equals the page pathname. -/
def dfs3First (pathname : String) (items : List MenuItem) :
    Option (List PageBreadcrumb) :=
  (trailsOf items).find? (lastMatches pathname)

/-- Modelled from the spec (§4.5): the candidate pathnames the Sibling-Index
Resolver checks — the page's pathname followed by successive truncations of
the last path segment, stopping before a truncation that reaches the root
and bounded by the iteration budget. -/
def truncCandidates : Nat → String → List String
  | 0, _ => []
  | k + 1, p =>
    p :: (if truncSeg p == "/" then [] else truncCandidates k (truncSeg p))

/-- The binding name of a synthetic export node, if the node is one. -/
def exportName : HNode → Option String
  | .esmExport n _ => some n
  | _ => none

/-! ## Lemmas and theorems -/

theorem toDigitsCore_eq_digitsRec (fuel : Nat) :
    ∀ (n : Nat) (acc : List Char), n < fuel →
      Nat.toDigitsCore 10 fuel n acc = digitsRec n ++ acc := by
  induction fuel with
  | zero => intro n acc h; omega
  | succ fuel ih =>
    intro n acc h
    rw [digitsRec]
    by_cases h10 : n < 10
    · have hz : n / 10 = 0 := Nat.div_eq_of_lt h10
      have hm : n % 10 = n := Nat.mod_eq_of_lt h10
      simp [Nat.toDigitsCore, hz, hm, h10]
    · have hz : ¬ n / 10 = 0 := by
        intro hc
        rw [Nat.div_eq_zero_iff (by omega)] at hc
        exact h10 hc
      rw [dif_neg h10]
      simp only [Nat.toDigitsCore, if_neg hz]
      rw [ih (n / 10) _ (by
        have h1 : n / 10 < n := Nat.div_lt_self (by omega) (by omega)
        omega)]
      simp
theorem decDigitVal_append (l : List Char) (c : Char) :
    decDigitVal (l ++ [c]) = decDigitVal l * 10 + (c.toNat - 48) := by
  simp [decDigitVal, List.foldl_append]

theorem digitChar_val (d : Nat) (h : d < 10) : (Nat.digitChar d).toNat - 48 = d := by
  interval_cases d <;> rfl

theorem decDigitVal_digitsRec (n : Nat) : decDigitVal (digitsRec n) = n := by
  induction n using Nat.strong_induction_on with
  | _ n ih =>
    rw [digitsRec]
    by_cases h10 : n < 10
    · rw [dif_pos h10]
      simp [decDigitVal, digitChar_val n h10]
    · rw [dif_neg h10, decDigitVal_append,
        ih (n / 10) (Nat.div_lt_self (by omega) (by omega)),
        digitChar_val _ (Nat.mod_lt _ (by omega))]
      omega

theorem natRepr_inj {m n : Nat} (h : Nat.repr m = Nat.repr n) : m = n := by
  have hd : Nat.toDigits 10 m = Nat.toDigits 10 n := by
    have := congrArg String.data h
    simpa [Nat.repr, List.asString] using this
  rw [Nat.toDigits, Nat.toDigits,
    toDigitsCore_eq_digitsRec _ m [] (Nat.lt_succ_self m),
    toDigitsCore_eq_digitsRec _ n [] (Nat.lt_succ_self n)] at hd
  simp only [List.append_nil] at hd
  have := congrArg decDigitVal hd
  rwa [decDigitVal_digitsRec, decDigitVal_digitsRec] at this

theorem cand_inj (orig : String) {m n : Nat} (h : cand orig m = cand orig n) :
    m = n := by
  apply natRepr_inj
  have := congrArg String.data h
  simp only [cand, String.data_append] at this
  have h2 := List.append_cancel_left this
  exact String.ext h2

theorem cand_ne_orig (orig : String) (n : Nat) : cand orig n ≠ orig := by
  intro h
  have hlen := congrArg String.length h
  simp only [cand, String.length_append] at hlen
  have hrep : 0 < (Nat.repr n).length := by
    rw [Nat.repr, Nat.toDigits,
      toDigitsCore_eq_digitsRec _ n [] (Nat.lt_succ_self n)]
    rw [digitsRec]
    by_cases h10 : n < 10
    · rw [dif_pos h10]; simp [List.asString]
    · rw [dif_neg h10]; simp [List.asString]
  have hone : ("-" : String).length = 1 := rfl
  omega

/-! ### Freshness of slugs produced by the collision loop -/

theorem hasOwn_occSet (occ : List (String × Nat)) (k : String) (v : Nat) (x : String) :
    hasOwn (occSet occ k v) x = true ↔ (hasOwn occ x = true ∨ x = k) := by
  induction occ with
  | nil =>
    simp only [occSet, hasOwn, List.any_cons, List.any_nil, Bool.or_false,
      beq_iff_eq, Bool.false_eq_true, false_or]
    exact eq_comm
  | cons p rest ih =>
    by_cases h : p.1 = k
    · simp only [occSet, h, beq_self_eq_true, if_true]
      simp only [hasOwn, List.any_cons, Bool.or_eq_true, beq_iff_eq, h]
      constructor
      · intro hx
        exact Or.inl hx
      · rintro (hx | hx)
        · exact hx
        · exact Or.inl hx.symm
    · have hb : (p.1 == k) = false := beq_eq_false_iff_ne.mpr h
      simp only [occSet, hb, Bool.false_eq_true, if_false]
      simp only [hasOwn, List.any_cons, Bool.or_eq_true] at ih ⊢
      tauto

theorem occGet_occSet (occ : List (String × Nat)) (k : String) (v : Nat) :
    occGet (occSet occ k v) k = v := by
  induction occ with
  | nil => simp [occSet, occGet, List.find?]
  | cons p rest ih =>
    by_cases h : p.1 = k
    · simp only [occSet, h, beq_self_eq_true, if_true]
      simp [occGet, List.find?]
    · have hb : (p.1 == k) = false := beq_eq_false_iff_ne.mpr h
      simp only [occSet, hb, Bool.false_eq_true, if_false]
      simpa [occGet, List.find?, hb] using ih

theorem hasOwn_iff_mem (occ : List (String × Nat)) (k : String) :
    hasOwn occ k = true ↔ k ∈ occ.map Prod.fst := by
  simp [hasOwn, List.any_eq_true, List.mem_map]

theorem exists_fresh_cand (occ : List (String × Nat)) (orig : String) (g : Nat) :
    ∃ i, 1 ≤ i ∧ i ≤ occ.length + 1 ∧ hasOwn occ (cand orig (g + i)) = false := by
  by_contra hc
  push_neg at hc
  have hall : ∀ i, 1 ≤ i → i ≤ occ.length + 1 → hasOwn occ (cand orig (g + i)) = true := by
    intro i h1 h2
    have := hc i h1 h2
    revert this
    cases hasOwn occ (cand orig (g + i)) <;> simp
  have hinj : Function.Injective (fun j : Fin (occ.length + 1) => cand orig (g + 1 + j.val)) := by
    intro a b hab
    have := cand_inj orig hab
    have : a.val = b.val := by omega
    exact Fin.ext this
  have hsub : ∀ j : Fin (occ.length + 1),
      cand orig (g + 1 + j.val) ∈ (occ.map Prod.fst).toFinset := by
    intro j
    rw [List.mem_toFinset, ← hasOwn_iff_mem]
    have : g + 1 + j.val = g + (1 + j.val) := by omega
    rw [this]
    exact hall (1 + j.val) (by omega) (by omega)
  have hcard : (Finset.univ : Finset (Fin (occ.length + 1))).card ≤
      (occ.map Prod.fst).toFinset.card := by
    apply Finset.card_le_card_of_injOn _ (fun j _ => hsub j)
    exact Function.Injective.injOn hinj
  have h1 : (Finset.univ : Finset (Fin (occ.length + 1))).card = occ.length + 1 := by
    simp
  have h2 : (occ.map Prod.fst).toFinset.card ≤ occ.length := by
    calc (occ.map Prod.fst).toFinset.card ≤ (occ.map Prod.fst).length :=
          List.toFinset_card_le _
      _ = occ.length := List.length_map _ _
  omega

theorem slugLoop_hasOwn (orig : String) :
    ∀ (fuel : Nat) (occ : List (String × Nat)) (slug x : String),
      hasOwn occ orig = true →
      (hasOwn (slugLoop orig fuel occ slug).2 x = true ↔ hasOwn occ x = true) := by
  intro fuel
  induction fuel with
  | zero =>
    intro occ slug x h
    simp [slugLoop]
  | succ fuel ih =>
    intro occ slug x h
    simp only [slugLoop]
    by_cases hs : hasOwn occ slug = true
    · rw [if_pos hs]
      have horig : hasOwn (occSet occ orig (occGet occ orig + 1)) orig = true :=
        (hasOwn_occSet _ _ _ _).mpr (Or.inr rfl)
      rw [ih _ _ x horig, hasOwn_occSet]
      constructor
      · rintro (hx | rfl)
        · exact hx
        · exact h
      · exact Or.inl
    · rw [if_neg hs]

theorem slugLoop_fresh (orig : String) :
    ∀ (fuel : Nat) (occ : List (String × Nat)) (slug : String),
      hasOwn occ orig = true →
      (hasOwn occ slug = false ∨
        ∃ i, 1 ≤ i ∧ i ≤ fuel ∧ hasOwn occ (cand orig (occGet occ orig + i)) = false) →
      hasOwn occ ((slugLoop orig fuel occ slug).1) = false := by
  intro fuel
  induction fuel with
  | zero =>
    intro occ slug h hh
    rcases hh with hh | ⟨i, h1, h2, _⟩
    · simpa [slugLoop] using hh
    · omega
  | succ fuel ih =>
    intro occ slug h hh
    simp only [slugLoop]
    by_cases hs : hasOwn occ slug = true
    · rw [if_pos hs]
      rcases hh with hh | ⟨i, h1, h2, h3⟩
      · rw [hs] at hh; cases hh
      have hg2 : occGet (occSet occ orig (occGet occ orig + 1)) orig =
          occGet occ orig + 1 := occGet_occSet occ orig _
      have hkeys : ∀ y, hasOwn (occSet occ orig (occGet occ orig + 1)) y = true ↔
          (hasOwn occ y = true ∨ y = orig) :=
        fun y => hasOwn_occSet occ orig _ y
      have hkeysF : ∀ n, hasOwn occ (cand orig n) = false →
          hasOwn (occSet occ orig (occGet occ orig + 1)) (cand orig n) = false := by
        intro n hn
        by_contra hcon
        have : hasOwn (occSet occ orig (occGet occ orig + 1)) (cand orig n) = true := by
          revert hcon
          cases hasOwn (occSet occ orig (occGet occ orig + 1)) (cand orig n) <;> simp
        rcases (hkeys _).mp this with hx | hx
        · rw [hn] at hx; cases hx
        · exact cand_ne_orig orig n hx
      have horig2 : hasOwn (occSet occ orig (occGet occ orig + 1)) orig = true :=
        (hkeys orig).mpr (Or.inr rfl)
      have hres := ih (occSet occ orig (occGet occ orig + 1))
        (cand orig (occGet occ orig + 1)) horig2 ?_
      · by_contra hcon
        have hT : hasOwn occ ((slugLoop orig fuel
            (occSet occ orig (occGet occ orig + 1))
            (cand orig (occGet occ orig + 1))).1) = true := by
          revert hcon
          cases hasOwn occ ((slugLoop orig fuel
            (occSet occ orig (occGet occ orig + 1))
            (cand orig (occGet occ orig + 1))).1) <;> simp
        have := (hkeys _).mpr (Or.inl hT)
        rw [hres] at this
        cases this
      · by_cases hi : i = 1
        · subst hi
          exact Or.inl (hkeysF _ h3)
        · refine Or.inr ⟨i - 1, by omega, by omega, ?_⟩
          rw [hg2]
          have harith : occGet occ orig + 1 + (i - 1) = occGet occ orig + i := by omega
          rw [harith]
          exact hkeysF _ h3
    · rw [if_neg hs]
      simp only []
      cases hb : hasOwn occ slug
      · rfl
      · exact absurd hb hs

theorem Slugger.slug_fresh (s : Slugger) (value : String) :
    hasOwn s.occurrences (s.slug value).1 = false := by
  show hasOwn s.occurrences
    (slugLoop (slugify value) (s.occurrences.length + 1) s.occurrences (slugify value)).1 = false
  by_cases h : hasOwn s.occurrences (slugify value) = true
  · apply slugLoop_fresh (slugify value) (s.occurrences.length + 1) s.occurrences
      (slugify value) h
    rcases exists_fresh_cand s.occurrences (slugify value)
      (occGet s.occurrences (slugify value)) with ⟨i, h1, h2, h3⟩
    exact Or.inr ⟨i, h1, h2, h3⟩
  · simp only [slugLoop]
    rw [if_neg h]
    simp only []
    cases hb : hasOwn s.occurrences (slugify value)
    · rfl
    · exact absurd hb h

theorem Slugger.slug_snd_occ (s : Slugger) (value : String) :
    (s.slug value).2.occurrences =
      occSet (slugLoop (slugify value) (s.occurrences.length + 1)
        s.occurrences (slugify value)).2 (s.slug value).1 0 := rfl

theorem Slugger.slug_hasOwn (s : Slugger) (value x : String) :
    hasOwn (s.slug value).2.occurrences x = true ↔
      (hasOwn s.occurrences x = true ∨ x = (s.slug value).1) := by
  rw [Slugger.slug_snd_occ, hasOwn_occSet]
  by_cases h : hasOwn s.occurrences (slugify value) = true
  · rw [slugLoop_hasOwn (slugify value) _ _ _ x h]
  · have hl : slugLoop (slugify value) (s.occurrences.length + 1)
        s.occurrences (slugify value) = (slugify value, s.occurrences) := by
      simp only [slugLoop]
      rw [if_neg h]
    rw [hl]

/-! ### The Heading Slugger walk preserves `HeadInv` -/

theorem headingVisit_inv (st : HeadState) (tag : String) (props : Option Props)
    (cs : List HNode) (hinv : HeadInv st) :
    HeadInv (headingVisit st tag props cs).2 := by
  cases props with
  | none =>
    have h : headingVisit st tag none cs = (none, st) := by
      unfold headingVisit
      cases headingRank (HNode.element tag none cs) <;> rfl
    rw [h]
    exact hinv
  | some ps =>
    cases hr : headingRank (.element tag (some ps) cs) with
    | none =>
      have h : headingVisit st tag (some ps) cs = (some ps, st) := by
        unfold headingVisit
        rw [hr]
      rw [h]
      exact hinv
    | some level =>
      by_cases hid : hasProperty (.element tag (some ps) cs) "id" = true
      · have h : headingVisit st tag (some ps) cs = (some ps, st) := by
          unfold headingVisit
          rw [hr]
          simp [hid]
        rw [h]
        exact hinv
      · have h : (headingVisit st tag (some ps) cs).2 =
            ⟨(st.slugs.slug (nodeToString (.element tag (some ps) cs))).2,
              st.headings ++ [⟨nodeToString (.element tag (some ps) cs),
                (st.slugs.slug (nodeToString (.element tag (some ps) cs))).1, level⟩]⟩ := by
          unfold headingVisit
          rw [hr]
          simp [hid]
        rw [h]
        constructor
        · simp only [List.map_append, List.map_cons, List.map_nil]
          rw [List.nodup_append]
          refine ⟨hinv.1, List.nodup_singleton _, ?_⟩
          intro a ha hb
          simp only [List.mem_singleton] at hb
          subst hb
          rcases List.mem_map.mp ha with ⟨e, he, hei⟩
          have htrue := hinv.2 e he
          rw [hei] at htrue
          have hfresh := Slugger.slug_fresh st.slugs
            (nodeToString (.element tag (some ps) cs))
          rw [htrue] at hfresh
          cases hfresh
        · intro e he
          rcases List.mem_append.mp he with hold | hnew
          · exact (Slugger.slug_hasOwn st.slugs _ e.id).mpr (Or.inl (hinv.2 e hold))
          · simp only [List.mem_singleton] at hnew
            subst hnew
            exact (Slugger.slug_hasOwn st.slugs _ _).mpr (Or.inr rfl)

mutual

theorem slugNode_inv : ∀ (st : HeadState) (n : HNode),
    HeadInv st → HeadInv (slugNode st n).2
  | st, .element tag props cs, hinv => by
    simp only [slugNode]
    exact slugList_inv _ cs (headingVisit_inv st tag props cs hinv)
  | st, .htext v, hinv => by
    simp only [slugNode]
    exact hinv
  | st, .esmExport n v, hinv => by
    simp only [slugNode]
    exact hinv

theorem slugList_inv : ∀ (st : HeadState) (l : List HNode),
    HeadInv st → HeadInv (slugList st l).2
  | st, [], hinv => by
    simp only [slugList]
    exact hinv
  | st, c :: cs, hinv => by
    simp only [slugList]
    exact slugList_inv _ cs (slugNode_inv st c hinv)

end

/-! ### C1 — slug uniqueness within a document -/

/-- C1 (counterexample): the claim "for two headings with identical
plain-text content, the second receives a `-1` suffix" fails on the document
with headings `foo`, `foo 1`, `foo`: the heading text `foo 1` already
produces the slug `foo-1`, so the second `foo` heading receives `foo-2`,
not `foo-1`. -/
theorem C1_counterexample :
    ((exportContentHeadings ⟨[]⟩
        ⟨[.element "h2" (some []) [.htext "foo"],
          .element "h2" (some []) [.htext "foo 1"],
          .element "h2" (some []) [.htext "foo"]]⟩).2.headings.map PageHeading.id =
      ["foo", "foo-1", "foo-2"]) ∧
    ("foo-2" : String) ≠ "foo-1" :=
  ⟨rfl, by decide⟩

/-- C1 (amended): for every document the slugs assigned by the Heading
Slugger are pairwise distinct, and the result is independent of whatever an
earlier document left in the shared registry (the registry is reset at the
start of each document's heading pass).  A repeated heading text receives
the next numeric suffix not yet taken, so identical texts receive `-1`,
`-2`, … in order whenever no other heading produced a colliding slug (the
registry state from a stale earlier document does not interfere). -/
theorem C1_slugs_distinct :
    (∀ (s : Slugger) (mdast : Root),
      ((exportContentHeadings s mdast).2.headings.map PageHeading.id).Nodup) ∧
    (∀ (s1 s2 : Slugger) (mdast : Root),
      exportContentHeadings s1 mdast = exportContentHeadings s2 mdast) ∧
    ((exportContentHeadings ⟨[("stale", 7), ("foo", 4)]⟩
        ⟨[.element "h2" (some []) [.htext "foo"],
          .element "h2" (some []) [.htext "foo"],
          .element "h2" (some []) [.htext "foo"]]⟩).2.headings.map PageHeading.id =
      ["foo", "foo-1", "foo-2"]) := by
  have h0 : HeadInv ⟨⟨[]⟩, []⟩ := by
    constructor
    · exact List.nodup_nil
    · intro h hm
      cases hm
  refine ⟨?_, ?_, rfl⟩
  · intro s mdast
    exact (slugList_inv ⟨⟨[]⟩, []⟩ mdast.children h0).1
  · intro s1 s2 mdast
    rfl

/-! ### C2 — pre-existing identifiers are kept -/

/-- C2: a heading element (rank 1–6) whose `id` property is already set to a
non-null, non-false value is left with its properties unchanged and
contributes no entry to the outline: the walk state handed to its children
is exactly the incoming state. -/
theorem C2_preexisting_id (st : HeadState) (tag : String) (ps : Props)
    (cs : List HNode) (level : Nat)
    (hrank : headingRank (.element tag (some ps) cs) = some level)
    (hid : hasProperty (.element tag (some ps) cs) "id" = true) :
    slugNode st (.element tag (some ps) cs) =
      (.element tag (some ps) (slugList st cs).1, (slugList st cs).2) := by
  have h : headingVisit st tag (some ps) cs = (some ps, st) := by
    unfold headingVisit
    rw [hrank]
    simp [hid]
  simp only [slugNode, h]

/-- Witness for C2 at a concrete heading with `id: "keep"`. -/
theorem C2_preexisting_id_witness :
    slugNode ⟨⟨[]⟩, []⟩
        (.element "h2" (some [("id", .vStr "keep")]) [.htext "foo"]) =
      (.element "h2" (some [("id", PVal.vStr "keep")])
        (slugList ⟨⟨[]⟩, []⟩ [.htext "foo"]).1,
        (slugList ⟨⟨[]⟩, []⟩ [.htext "foo"]).2) :=
  C2_preexisting_id ⟨⟨[]⟩, []⟩ "h2" [("id", .vStr "keep")] [.htext "foo"] 2 rfl rfl

/-! ### C9 — headings without a `properties` object are skipped -/

/-- C9: a heading element (rank 1–6) carrying no `properties` object at all
is skipped entirely: no identifier is assigned and the walk state handed to
its children is exactly the incoming state. -/
theorem C9_no_properties (st : HeadState) (tag : String) (cs : List HNode)
    (level : Nat) (hrank : headingRank (.element tag none cs) = some level) :
    slugNode st (.element tag none cs) =
      (.element tag none (slugList st cs).1, (slugList st cs).2) := by
  have h : headingVisit st tag none cs = (none, st) := by
    unfold headingVisit
    rw [hrank]
  simp only [slugNode, h]

/-- Witness for C9 at a concrete `h3` element without properties. -/
theorem C9_no_properties_witness :
    slugNode ⟨⟨[]⟩, []⟩ (.element "h3" none [.htext "x"]) =
      (.element "h3" none (slugList ⟨⟨[]⟩, []⟩ [.htext "x"]).1,
        (slugList ⟨⟨[]⟩, []⟩ [.htext "x"]).2) :=
  C9_no_properties ⟨⟨[]⟩, []⟩ "h3" [.htext "x"] 3 rfl

/-! ### C3 — extension stripping for existing local markdown links -/

/-- C3 is false as stated: for the anchor attribute `" ./foo.md"` (leading
space), which is local, ends in `.md`, and resolves to an existing file
(the modelled filesystem contains the resolution of both the raw and the
trimmed value, so the premise holds under either reading), the source
strips by the *trimmed* length against the *raw* string —
`node.properties.href.substring(0, href.length - 3)` — producing `" ./fo"`,
which is neither the original attribute minus its trailing 3 characters
(`" ./foo"`) nor the trimmed value minus its trailing 3 characters
(`"./foo"`). -/
theorem C3_counterexample :
    (updateLinkVisit
        (fun p => p == "/docs/foo.md" || p == resolvePath (dirname "/docs/bar.mdx") " ./foo.md")
        "/docs/bar.mdx" "a"
        (some [("href", .vStr " ./foo.md")]) =
      (some [("href", PVal.vStr " ./fo")], [])) ∧
    String.mk (" ./foo.md".data.take (" ./foo.md".length - 3)) = " ./foo" ∧
    (" ./fo" : String) ≠ " ./foo" ∧
    (" ./fo" : String) ≠ "./foo" :=
  ⟨rfl, rfl, by decide, by decide⟩

/-- C3 (amended): for every anchor whose `href` attribute carries no
surrounding whitespace (it equals its trimmed value), is local, ends
case-insensitively in `.mdx` (resp. `.md`), and resolves against the
directory of the current source path to an existing file, the new attribute
is the original string with exactly its trailing 4 (resp. 3) characters
removed, and no warning is emitted. -/
theorem C3_strip_extension (fsExists : String → Bool) (sourcePath tagName : String)
    (ps : Props) (raw : String)
    (htag : jsToLower tagName = "a")
    (hhref : propGet ps "href" = some (.vStr raw))
    (htrim : jsTrim raw = raw)
    (hlocal : isLocalHref raw = true)
    (hexists : fsExists (resolvePath (dirname sourcePath) raw) = true) :
    (strEnds (jsToLower raw) ".mdx" = true →
      updateLinkVisit fsExists sourcePath tagName (some ps) =
        (some (propSet ps "href"
          (.vStr (String.mk (raw.data.take (raw.length - 4))))), [])) ∧
    (strEnds (jsToLower raw) ".mdx" = false →
      strEnds (jsToLower raw) ".md" = true →
      updateLinkVisit fsExists sourcePath tagName (some ps) =
        (some (propSet ps "href"
          (.vStr (String.mk (raw.data.take (raw.length - 3))))), [])) := by
  have hs : hrefString (some ps) = raw := by
    simp [hrefString, hhref]
  constructor
  · intro hmdx
    unfold updateLinkVisit
    rw [htag, hs, htrim]
    simp [hlocal, hmdx, hexists, jsSubstringTo]
  · intro hnmdx hmd
    unfold updateLinkVisit
    rw [htag, hs, htrim]
    simp [hlocal, hnmdx, hmd, hexists, jsSubstringTo]

/-- Witness for C3 (amended) at the spec's own example: `./foo.mdx` from
`/docs/bar.mdx` with `/docs/foo.mdx` present becomes `./foo`. -/
theorem C3_strip_extension_witness :
    updateLinkVisit (fun p => p == "/docs/foo.mdx") "/docs/bar.mdx" "a"
        (some [("href", .vStr "./foo.mdx")]) =
      (some [("href", PVal.vStr "./foo")], []) :=
  (C3_strip_extension (fun p => p == "/docs/foo.mdx") "/docs/bar.mdx" "a"
    [("href", PVal.vStr "./foo.mdx")] "./foo.mdx" rfl rfl rfl rfl rfl).1 rfl

/-! ### C4 — broken local markdown links warn and are left alone -/

/-- C4: for every anchor whose trimmed target is a local markdown reference
that does not resolve to an existing file, the properties are unmodified and
exactly one warning is emitted; the warning contains the link text and the
source path as substrings; and (concrete tree) the walk continues past the
broken link, still rewriting a later good link. -/
theorem C4_broken_link_warns (fsExists : String → Bool) (sourcePath tagName : String)
    (props : Option Props)
    (htag : jsToLower tagName = "a")
    (hlocal : isLocalHref (jsTrim (hrefString props)) = true)
    (hmd : (strEnds (jsToLower (jsTrim (hrefString props))) ".mdx" ||
        strEnds (jsToLower (jsTrim (hrefString props))) ".md") = true)
    (hmiss : fsExists (resolvePath (dirname sourcePath)
      (jsTrim (hrefString props))) = false) :
    (updateLinkVisit fsExists sourcePath tagName props =
      (props,
        ["\nThe link \"" ++ jsTrim (hrefString props) ++ "\", found within \"" ++
          sourcePath ++ "\", does not have a matching source file.\n"])) ∧
    (∃ w1 w2, "\nThe link \"" ++ jsTrim (hrefString props) ++ "\", found within \"" ++
        sourcePath ++ "\", does not have a matching source file.\n" =
      w1 ++ jsTrim (hrefString props) ++ w2) ∧
    (∃ w3 w4, "\nThe link \"" ++ jsTrim (hrefString props) ++ "\", found within \"" ++
        sourcePath ++ "\", does not have a matching source file.\n" =
      w3 ++ sourcePath ++ w4) ∧
    (updateContentLinks (fun p => p == "/docs/foo.md")
        ⟨[.element "a" (some [("href", .vStr "./missing.md")]) [],
          .element "a" (some [("href", .vStr "./foo.md")]) []]⟩ "/docs/bar.mdx" =
      (⟨[.element "a" (some [("href", .vStr "./missing.md")]) [],
          .element "a" (some [("href", .vStr "./foo")]) []]⟩,
        ["\nThe link \"./missing.md\", found within \"/docs/bar.mdx\", does not have a matching source file.\n"])) := by
  refine ⟨?_, ?_, ?_, rfl⟩
  · unfold updateLinkVisit
    rw [htag]
    simp [hlocal, hmd, hmiss]
  · refine ⟨"\nThe link \"",
      "\", found within \"" ++ sourcePath ++
        "\", does not have a matching source file.\n", ?_⟩
    simp [String.append_assoc]
  · refine ⟨"\nThe link \"" ++ jsTrim (hrefString props) ++ "\", found within \"",
      "\", does not have a matching source file.\n", ?_⟩
    simp [String.append_assoc]

/-- Witness for C4 at the spec's own example: `./missing.md` from
`/docs/bar.mdx` with an empty filesystem. -/
theorem C4_broken_link_warns_witness :
    updateLinkVisit (fun _ => false) "/docs/bar.mdx" "a"
        (some [("href", .vStr "./missing.md")]) =
      (some [("href", PVal.vStr "./missing.md")],
        ["\nThe link \"" ++ jsTrim (hrefString (some [("href", PVal.vStr "./missing.md")])) ++
          "\", found within \"" ++ "/docs/bar.mdx" ++
          "\", does not have a matching source file.\n"]) :=
  (C4_broken_link_warns (fun _ => false) "/docs/bar.mdx" "a"
    (some [("href", PVal.vStr "./missing.md")]) rfl rfl rfl rfl).1

/-! ### C5 — non-local targets are never mutated -/

/-- C5: every anchor whose classified target (the trimmed attribute, as the
source classifies it) is empty, fragment-only, or an `http://`, `https://`
or `about:` URL — case-insensitively — is left unmodified with no warning;
concrete instances cover each enumerated shape, including upper-case
variants and markdown-looking external URLs. -/
theorem C5_nonlocal_untouched (fsExists : String → Bool) (sourcePath tagName : String)
    (props : Option Props)
    (h : jsToLower (jsTrim (hrefString props)) = "" ∨
      strStarts (jsToLower (jsTrim (hrefString props))) "#" = true ∨
      strStarts (jsToLower (jsTrim (hrefString props))) "https://" = true ∨
      strStarts (jsToLower (jsTrim (hrefString props))) "http://" = true ∨
      strStarts (jsToLower (jsTrim (hrefString props))) "about:" = true) :
    (updateLinkVisit fsExists sourcePath tagName props = (props, [])) ∧
    (updateLinkVisit (fun _ => true) "/x.mdx" "a"
        (some [("href", .vStr "")]) = (some [("href", PVal.vStr "")], [])) ∧
    (updateLinkVisit (fun _ => true) "/x.mdx" "a"
        (some [("href", .vStr "#section")]) =
      (some [("href", PVal.vStr "#section")], [])) ∧
    (updateLinkVisit (fun _ => true) "/x.mdx" "a"
        (some [("href", .vStr "https://example.com/a.md")]) =
      (some [("href", PVal.vStr "https://example.com/a.md")], [])) ∧
    (updateLinkVisit (fun _ => true) "/x.mdx" "A"
        (some [("href", .vStr "HTTP://EX.COM/A.MD")]) =
      (some [("href", PVal.vStr "HTTP://EX.COM/A.MD")], [])) ∧
    (updateLinkVisit (fun _ => true) "/x.mdx" "a"
        (some [("href", .vStr "about:blank.md")]) =
      (some [("href", PVal.vStr "about:blank.md")], [])) := by
  have hfalse : isLocalHref (jsTrim (hrefString props)) = false := by
    unfold isLocalHref
    rcases h with h | h | h | h | h <;> simp [h]
  refine ⟨?_, rfl, rfl, rfl, rfl, rfl⟩
  by_cases ht : jsToLower tagName = "a"
  · unfold updateLinkVisit
    rw [ht]
    simp [hfalse]
  · unfold updateLinkVisit
    simp [ht]

/-- Witness for C5 at a concrete fragment-only anchor. -/
theorem C5_nonlocal_untouched_witness :
    updateLinkVisit (fun _ => true) "/p/q.mdx" "a"
        (some [("href", .vStr "#top")]) =
      (some [("href", PVal.vStr "#top")], []) :=
  (C5_nonlocal_untouched (fun _ => true) "/p/q.mdx" "a"
    (some [("href", PVal.vStr "#top")]) (Or.inr (Or.inl rfl))).1

/-! ### C10 — absent or blank targets, classification on the trimmed value -/

/-- C10: an anchor whose target attribute is absent (or whose trimmed value
is empty) is treated as the empty string and left unmodified; an absent
`properties` object and an absent `href` key both read back as `""`; and
classification is performed on the trimmed value — the anchor `" #x"`,
whose raw value would classify as local, is untouched because its trimmed
value `"#x"` is fragment-only. -/
theorem C10_blank_href (fsExists : String → Bool) (sourcePath tagName : String)
    (props : Option Props)
    (h : jsTrim (hrefString props) = "") :
    (updateLinkVisit fsExists sourcePath tagName props = (props, [])) ∧
    hrefString none = "" ∧
    (∀ ps : Props, propGet ps "href" = none → hrefString (some ps) = "") ∧
    (updateLinkVisit (fun _ => true) "/d/s.mdx" "a"
        (some [("href", .vStr " #x")]) =
      (some [("href", PVal.vStr " #x")], [])) ∧
    isLocalHref " #x" = true ∧
    isLocalHref "#x" = false := by
  refine ⟨?_, rfl, ?_, rfl, rfl, rfl⟩
  · have hfalse : isLocalHref (jsTrim (hrefString props)) = false := by
      rw [h]
      rfl
    by_cases ht : jsToLower tagName = "a"
    · unfold updateLinkVisit
      rw [ht]
      simp [hfalse]
    · unfold updateLinkVisit
      simp [ht]
  · intro ps hn
    simp [hrefString, hn]

/-- Witness for C10 at a whitespace-only target attribute. -/
theorem C10_blank_href_witness :
    updateLinkVisit (fun _ => true) "/d/s.mdx" "a"
        (some [("href", .vStr "   ")]) =
      (some [("href", PVal.vStr "   ")], []) :=
  (C10_blank_href (fun _ => true) "/d/s.mdx" "a"
    (some [("href", PVal.vStr "   ")]) rfl).1

/-! ### C6 — the breadcrumb search is a depth-first first-match search -/

theorem find?_or {α : Type} (p : α → Bool) (l1 l2 : List α) :
    (l1 ++ l2).find? p = (l1.find? p).or (l2.find? p) := by
  induction l1 with
  | nil => simp
  | cons a l ih =>
    cases h : p a
    · simp [List.find?_cons, h, ih]
    · simp [List.find?_cons, h]

theorem findC_eq (bA bB : PageBreadcrumb) (pathname : String) (cs : List MenuItem) :
    findBreadcrumbC bA bB pathname cs =
      (cs.map (fun c => [bA, bB, (⟨c.text, c.href⟩ : PageBreadcrumb)])).find?
        (lastMatches pathname) := by
  induction cs with
  | nil => rfl
  | cons c rest ih =>
    simp only [findBreadcrumbC, List.map_cons]
    by_cases h : (c.href == pathname) = true
    · rw [if_pos h, List.find?_cons_of_pos _
        (show lastMatches pathname [bA, bB, ⟨c.text, c.href⟩] = true from h)]
    · rw [if_neg h, List.find?_cons_of_neg _
        (show ¬ lastMatches pathname [bA, bB, ⟨c.text, c.href⟩] = true from h), ih]

theorem findB_eq (bA : PageBreadcrumb) (pathname : String) (bs : List MenuItem) :
    findBreadcrumbB bA pathname bs =
      (bs.flatMap (fun b =>
        [bA, (⟨b.text, b.href⟩ : PageBreadcrumb)] ::
          ((b.items.getD []).map (fun c =>
            [bA, ⟨b.text, b.href⟩, (⟨c.text, c.href⟩ : PageBreadcrumb)])))).find?
        (lastMatches pathname) := by
  induction bs with
  | nil => rfl
  | cons b rest ih =>
    simp only [findBreadcrumbB, List.flatMap_cons, List.cons_append]
    by_cases h : (b.href == pathname) = true
    · rw [if_pos h, List.find?_cons_of_pos _
        (show lastMatches pathname [bA, ⟨b.text, b.href⟩] = true from h)]
    · rw [if_neg h, List.find?_cons_of_neg _
        (show ¬ lastMatches pathname [bA, ⟨b.text, b.href⟩] = true from h),
        find?_or, ← findC_eq, ← ih]
      cases hit : b.items with
      | none => rfl
      | some cs =>
        cases hc : findBreadcrumbC bA ⟨b.text, b.href⟩ pathname cs <;>
          simp [Option.getD, hc]

theorem trailsOf_cons (a : MenuItem) (rest : List MenuItem) :
    trailsOf (a :: rest) =
      [(⟨a.text, a.href⟩ : PageBreadcrumb)] ::
        (((a.items.getD []).flatMap (fun b =>
          [(⟨a.text, a.href⟩ : PageBreadcrumb), ⟨b.text, b.href⟩] ::
            ((b.items.getD []).map (fun c =>
              [⟨a.text, a.href⟩, ⟨b.text, b.href⟩, ⟨c.text, c.href⟩])))) ++
          trailsOf rest) := by
  simp [trailsOf]

theorem findA_eq (pathname : String) (items : List MenuItem) :
    findBreadcrumbA pathname items = (trailsOf items).find? (lastMatches pathname) := by
  induction items with
  | nil => rfl
  | cons a rest ih =>
    simp only [findBreadcrumbA]
    rw [trailsOf_cons]
    by_cases h : (a.href == pathname) = true
    · rw [if_pos h, List.find?_cons_of_pos _
        (show lastMatches pathname [⟨a.text, a.href⟩] = true from h)]
    · rw [if_neg h, List.find?_cons_of_neg _
        (show ¬ lastMatches pathname [⟨a.text, a.href⟩] = true from h),
        find?_or, ← findB_eq, ← ih]
      cases hit : a.items with
      | none => rfl
      | some bs =>
        cases hb : findBreadcrumbB ⟨a.text, a.href⟩ pathname bs <;>
          simp [Option.getD, hb]

/-- C6: the breadcrumb resolver equals the specified bounded depth-first
search — the first trail, in depth-first sequence order over exactly three
levels, whose final item's `href` equals the page pathname, compared by
string equality; on the spec's example menu it injects
`[{A,/a},{B,/a/b}]`, and with no match anywhere it injects the empty
sequence. -/
theorem C6_breadcrumbs :
    (∀ (pathname : String) (items : List MenuItem),
      findBreadcrumbA pathname items = dfs3First pathname items) ∧
    (exportBreadcrumbs
        ⟨[], [⟨"/menu", some [.mk "A" "/a" (some [.mk "B" "/a/b" none])]⟩], fun s => s⟩
        ⟨[]⟩ "/a/b" (some "/menu") =
      createExport ⟨[]⟩ "breadcrumbs"
        (bcToEJ [⟨"A", "/a"⟩, ⟨"B", "/a/b"⟩])) ∧
    (exportBreadcrumbs
        ⟨[], [⟨"/menu", some [.mk "A" "/a" (some [.mk "B" "/a/b" none])]⟩], fun s => s⟩
        ⟨[]⟩ "/zzz" (some "/menu") =
      createExport ⟨[]⟩ "breadcrumbs" (bcToEJ [])) :=
  ⟨fun pathname items => findA_eq pathname items, rfl, rfl⟩

/-! ### C7 — nearest menu section by segment truncation -/

/-- C7: the sibling-index lookup equals a first-match scan of the specified
candidate list (the pathname followed by its successive truncations, cut at
the root and bounded by the fuel, 9 in the source); on the spec's example
(`/a/b/c` with only `/a` registered) it returns `/a`; and the `index`
binding holds `{ path: <pathname> }` or `{ path: undefined }`. -/
theorem C7_menu_lookup :
    (∀ (menus : List Menu) (fuel : Nat) (p : String),
      getMenuLoop menus fuel p =
        (truncCandidates fuel p).find?
          (fun c => menus.any (fun m => m.pathname == c))) ∧
    (getMenuPathname ⟨[], [⟨"/a", none⟩], fun s => s⟩ "/a/b/c" = some "/a") ∧
    (∀ (ctx : BuildContext) (mdast : Root) (p : String),
      exportPageIndex ctx mdast (some p) =
        createExport mdast "index" (.obj [("path", .str p)])) ∧
    (∀ (ctx : BuildContext) (mdast : Root),
      exportPageIndex ctx mdast none =
        createExport mdast "index" (.obj [("path", .undef)])) := by
  refine ⟨?_, rfl, fun _ _ _ => rfl, fun _ _ => rfl⟩
  intro menus fuel
  induction fuel with
  | zero => intro p; rfl
  | succ k ih =>
    intro p
    simp only [getMenuLoop, truncCandidates, List.find?_cons]
    cases hm : menus.any (fun m => m.pathname == p) with
    | true => simp [hm]
    | false =>
      simp only [hm, Bool.false_eq_true, if_false]
      by_cases hr : (truncSeg p == "/") = true
      · rw [if_pos hr, if_pos hr]
        rfl
      · rw [if_neg hr, if_neg hr, ih]

/-! ### C8 — synthetic bindings are prepended, most recent first -/

theorem exportBreadcrumbs_shape (ctx : BuildContext) (mdast : Root)
    (pathname : String) (mp : Option String) :
    ∃ v, exportBreadcrumbs ctx mdast pathname mp =
      createExport mdast "breadcrumbs" v := by
  rcases mp with _ | s
  · exact ⟨bcToEJ [], rfl⟩
  · rcases hfind : ctx.menus.find? (fun m => m.pathname == s) with _ | m
    · exact ⟨bcToEJ [], by simp [exportBreadcrumbs, hfind]⟩
    · rcases hit : m.items with _ | its
      · exact ⟨bcToEJ [], by simp [exportBreadcrumbs, hfind, hit]⟩
      · rcases hb : findBreadcrumbA pathname its with _ | bs
        · exact ⟨bcToEJ [], by simp [exportBreadcrumbs, hfind, hit, hb]⟩
        · exact ⟨bcToEJ bs, by simp [exportBreadcrumbs, hfind, hit, hb]⟩

/-- C8: `createExport` always prepends the new binding to the front of the
child list, so successive injections accumulate in reverse call order; under
the pipeline's fixed order the transformed tree's children start with the
bindings `index`, `breadcrumbs`, `attributes`, `headings` — in that order —
followed exactly by the walked original children. -/
theorem C8_exports_front :
    (∀ (mdast : Root) (name : String) (v : EJVal),
      (createExport mdast name v).children = .esmExport name v :: mdast.children) ∧
    (∀ (ctx : BuildContext) (fsExists : String → Bool) (slugs : Slugger)
        (mdast : Root) (sourcePath : String),
      (((rehypePage ctx fsExists slugs mdast sourcePath).1.children.map
          exportName).take 4 =
        [some "index", some "breadcrumbs", some "attributes", some "headings"]) ∧
      ((rehypePage ctx fsExists slugs mdast sourcePath).1.children.drop 4 =
        (slugList ⟨⟨[]⟩, []⟩ (updateLinksList fsExists sourcePath mdast.children).1).1)) := by
  refine ⟨fun _ _ _ => rfl, ?_⟩
  intro ctx fsExists slugs mdast sourcePath
  obtain ⟨vBc, hBc⟩ := exportBreadcrumbs_shape ctx
    (exportPageAttributes ctx
      (exportContentHeadings slugs (updateContentLinks fsExists mdast sourcePath).1).1
      (ctx.pagePathname sourcePath))
    (ctx.pagePathname sourcePath) (getMenuPathname ctx (ctx.pagePathname sourcePath))
  have hre : (rehypePage ctx fsExists slugs mdast sourcePath).1 =
      exportPageIndex ctx
        (exportBreadcrumbs ctx
          (exportPageAttributes ctx
            (exportContentHeadings slugs
              (updateContentLinks fsExists mdast sourcePath).1).1
            (ctx.pagePathname sourcePath))
          (ctx.pagePathname sourcePath)
          (getMenuPathname ctx (ctx.pagePathname sourcePath)))
        (getMenuPathname ctx (ctx.pagePathname sourcePath)) := rfl
  rw [hre, hBc]
  exact ⟨rfl, rfl⟩

end Rehype
